import Mathlib

/-!
Verification of the automatic-differentiation and projection-operator core of
the porepy repository, as described by its specification.  The engine itself
(forward-mode AD pairs, subdomain and mortar projections, the DOF registry and
the equation manager) is exercised by the repository's unit tests; here the
data model and the operations are embedded shallowly in Lean and the stated
properties are proved about that embedding.

Matrices are represented with explicit dimensions and a total entry function;
all matrix identities are stated entrywise on the in-range indices.
-/

namespace Porepy

/-- Sparse/dense matrix model: explicit row and column counts together with a
total entry function.  Out-of-range entries are irrelevant: equality of
matrices is only ever asserted on in-range indices. -/
structure SMat where
  rows : Nat
  cols : Nat
  entry : Nat → Nat → ℚ

/-- Dimension-aware entrywise equality of two matrices. -/
def matEq (A B : SMat) : Prop :=
  A.rows = B.rows ∧ A.cols = B.cols ∧
    ∀ i, i < A.rows → ∀ j, j < A.cols → A.entry i j = B.entry i j

/-- Transpose. -/
def transposeM (A : SMat) : SMat :=
  ⟨A.cols, A.rows, fun i j => A.entry j i⟩

/-- Entrywise sum. -/
def matAdd (A B : SMat) : SMat :=
  ⟨A.rows, A.cols, fun i j => A.entry i j + B.entry i j⟩

/-- Entrywise difference. -/
def matSub (A B : SMat) : SMat :=
  ⟨A.rows, A.cols, fun i j => A.entry i j - B.entry i j⟩

/-- Matrix product: the inner dimension is taken from the left factor. -/
def matMul (A B : SMat) : SMat :=
  ⟨A.rows, B.cols, fun i j => ∑ k ∈ Finset.range A.cols, A.entry i k * B.entry k j⟩

/-- Identity matrix of size `n`. -/
def idMat (n : Nat) : SMat :=
  ⟨n, n, fun i j => if i = j then 1 else 0⟩

/-- Diagonal matrix whose diagonal is the given list. -/
def diagMat (l : List ℚ) : SMat :=
  ⟨l.length, l.length, fun i j => if i = j then l.getD i 0 else 0⟩

/-- Vertical stacking; the column count is that of the upper block. -/
def vstack (A B : SMat) : SMat :=
  ⟨A.rows + B.rows, A.cols,
    fun i j => if i < A.rows then A.entry i j else B.entry (i - A.rows) j⟩

/-- Horizontal stacking; the row count is that of the left block. -/
def hstack (A B : SMat) : SMat :=
  ⟨A.rows, A.cols + B.cols,
    fun i j => if j < A.cols then A.entry i j else B.entry i (j - A.cols)⟩

/- ### Forward-mode AD value/Jacobian pairs -/

/-- Modelled from the spec: the forward-mode AD value/Jacobian pair
(`Ad_array` in `porepy.numerics.ad.forward_mode`, whose implementation is not
part of this excerpt).  `val` is the value array (a scalar is a length-one
array) and `jac` the Jacobian with respect to the global unknown vector. -/
structure Ad_array where
  val : List ℚ
  jac : SMat

/-- Default AD pair used for out-of-range store lookups. -/
def adDefault : Ad_array := ⟨[], ⟨0, 0, fun _ _ => 0⟩⟩

/-- Modelled from the spec: addition of two AD pairs, `(u+v).value =
u.value + v.value` elementwise and `(u+v).jacobian = u.jacobian +
v.jacobian`. -/
def Ad_array.add (u v : Ad_array) : Ad_array :=
  ⟨List.zipWith (· + ·) u.val v.val, matAdd u.jac v.jac⟩

/-- Modelled from the spec: elementwise product of two AD pairs with the
product rule `(u*v).jacobian = diag(v.value)·u.jacobian +
diag(u.value)·v.jacobian`. -/
def Ad_array.mul (u v : Ad_array) : Ad_array :=
  ⟨List.zipWith (· * ·) u.val v.val,
    matAdd (matMul (diagMat v.val) u.jac) (matMul (diagMat u.val) v.jac)⟩

/-- Modelled from the spec: division of two AD pairs.  When any entry of the
denominator value is exactly zero the operation fails with a domain error,
raised synchronously (here: an `Except.error` result); otherwise the quotient
rule `(u/v).jacobian = (v.value·u.jacobian − u.value·v.jacobian)/v.value²`
applies. -/
def Ad_array.div (u v : Ad_array) : Except String Ad_array :=
  if v.val.any (· == 0) then Except.error "DomainError"
  else Except.ok
    ⟨List.zipWith (· / ·) u.val v.val,
      matMul (diagMat (v.val.map (fun x => 1 / (x * x))))
        (matSub (matMul (diagMat v.val) u.jac) (matMul (diagMat u.val) v.jac))⟩

/-- Modelled from the spec: AD pairs returned from arithmetic are fresh
allocations and operands are never mutated.  A store of AD pairs represents
the live Python objects; a binary operation reads its two operands and
appends a fresh result object, leaving every existing object untouched. -/
def runBinOp (f : Ad_array → Ad_array → Ad_array) (s : List Ad_array)
    (i j : Nat) : List Ad_array :=
  s ++ [f (s.getD i adDefault) (s.getD j adDefault)]

/-- Modelled from the spec: `copy` returns an independent (deep) copy of an
AD pair, appended to the store as a fresh object. -/
def copyOp (s : List Ad_array) (i : Nat) : List Ad_array :=
  s ++ [s.getD i adDefault]

/-- Modelled from the spec: in-place replacement of the value array of the
store object at index `k` (mutation of `a.val`). -/
def setVal (s : List Ad_array) (k : Nat) (v : List ℚ) : List Ad_array :=
  s.set k ⟨v, (s.getD k adDefault).jac⟩

/-- Modelled from the spec: in-place replacement of the Jacobian of the store
object at index `k` (mutation of `a.jac`). -/
def setJac (s : List Ad_array) (k : Nat) (J : SMat) : List Ad_array :=
  s.set k ⟨(s.getD k adDefault).val, J⟩

/-- Modelled from the spec: in-place assignment of one element of the value
array of the store object at index `k` (mutation `a.val[idx] = x`). -/
def setValElem (s : List Ad_array) (k idx : Nat) (x : ℚ) : List Ad_array :=
  s.set k ⟨((s.getD k adDefault).val).set idx x, (s.getD k adDefault).jac⟩

/-- Modelled from the spec: in-place assignment of one entry of the Jacobian
of the store object at index `k` (mutation `a.jac[r, c] = x`). -/
def setJacElem (s : List Ad_array) (k r c : Nat) (x : ℚ) : List Ad_array :=
  s.set k ⟨(s.getD k adDefault).val,
    ⟨(s.getD k adDefault).jac.rows, (s.getD k adDefault).jac.cols,
      fun r2 c2 => if r2 = r ∧ c2 = c then x else (s.getD k adDefault).jac.entry r2 c2⟩⟩

/- ### DOF registry, variables and merged variables -/

/-- Modelled from the spec: one block of the DOF registry.  A registered
(grid-or-interface, variable-name) pair owns a contiguous block of `size`
columns of the global vector; the per-grid state store holds the current
iterate and the previous-timestep array for that block. -/
structure Block where
  size : Nat
  iterate : List ℚ
  prev : List ℚ

/-- Default block for out-of-range lookups. -/
def blockDefault : Block := ⟨0, [], []⟩

/-- Modelled from the spec: the DOF registry is the ordered list of registered
blocks; offsets accumulate in registration order. -/
def DofRegistry : Type := List Block

/-- Column offset of block `i`: sum of the sizes of all earlier blocks. -/
def offsetR (reg : List Block) (i : Nat) : Nat :=
  ((reg.take i).map Block.size).sum

/-- Total global DOF count (`DofManager.num_dofs`). -/
def num_dofs (reg : List Block) : Nat :=
  (reg.map Block.size).sum

/-- Concatenation of a per-block array over the registry, in registration
order; used to assemble global state vectors from the per-grid stores. -/
def assembleWith (f : Block → List ℚ) : List Block → List ℚ
  | [] => []
  | b :: rest => f b ++ assembleWith f rest

/-- Modelled from the spec: the default global state vector, assembled from
every block's stored current-iterate array in registry order. -/
def assembleIterate (reg : List Block) : List ℚ :=
  assembleWith Block.iterate reg

/-- Modelled from the spec: the global previous-timestep vector, assembled
from every block's stored previous-timestep array in registry order. -/
def assemblePrev (reg : List Block) : List ℚ :=
  assembleWith Block.prev reg

/-- Contiguous slice `[off, off+len)` of a vector. -/
def slice (l : List ℚ) (off len : Nat) : List ℚ :=
  (l.drop off).take len

/-- Modelled from the spec: the value of a current-iterate `Variable` leaf
(identified with its registry block index) under a supplied global state
vector is the slice of that vector at the variable's DOF block. -/
def evalVarVal (reg : List Block) (i : Nat) (state : List ℚ) : List ℚ :=
  slice state (offsetR reg i) (reg.getD i blockDefault).size

/-- Modelled from the spec: the Jacobian of a current-iterate `Variable` leaf
is the identity-like selection matrix from its block's columns into the full
DOF space (rows = block size, columns = total DOF count, ones on the block's
diagonal positions). -/
def selectionMat (reg : List Block) (i : Nat) : SMat :=
  ⟨(reg.getD i blockDefault).size, num_dofs reg,
    fun r c => if c = offsetR reg i + r then 1 else 0⟩

/-- Modelled from the spec: the value of a `MergedVariable` (an ordered list
of registry block indices) is the concatenation of its constituents' values
in the declared order. -/
def evalMergedVal (reg : List Block) (state : List ℚ) : List Nat → List ℚ
  | [] => []
  | i :: rest => evalVarVal reg i state ++ evalMergedVal reg state rest

/-- Modelled from the spec: evaluating a `MergedVariable` with no explicit
state vector falls back to each sub-variable's stored current-iterate
state. -/
def evalMergedValNone (reg : List Block) : List Nat → List ℚ
  | [] => []
  | i :: rest => (reg.getD i blockDefault).iterate ++ evalMergedValNone reg rest

/-- Modelled from the spec: the Jacobian of a `MergedVariable` is the
vertical stack of its constituents' selection matrices; its column count is
the full registry DOF count. -/
def evalMergedJac (reg : List Block) : List Nat → SMat
  | [] => ⟨0, num_dofs reg, fun _ _ => 0⟩
  | i :: rest => vstack (selectionMat reg i) (evalMergedJac reg rest)

/-- Evaluation result of an operator-tree leaf: either a differentiable AD
pair or a plain numeric array without a Jacobian. -/
inductive EvalResult where
  | adres : Ad_array → EvalResult
  | plain : List ℚ → EvalResult

/-- Modelled from the spec: evaluating a previous-timestep `Variable` leaf
returns a plain array — the separately stored previous-timestep vector sliced
to this variable's block — and ignores any supplied state vector. -/
def evalPrevVar (reg : List Block) (i : Nat) (state : Option (List ℚ)) :
    EvalResult :=
  match state with
  | _ => EvalResult.plain (slice (assemblePrev reg) (offsetR reg i)
      (reg.getD i blockDefault).size)

/- ### Subdomain projections -/

/-- A subdomain grid, reduced to its entity counts. -/
structure Grid where
  num_cells : Nat
  num_faces : Nat

/-- Modelled from the spec: restriction of the full concatenated entity
ordering across all grids to the local entities of grid `i` of the list,
with `nd` DOFs per entity (each scalar index becomes `nd` consecutive
columns). -/
def restriction (nd : Nat) (sizes : List Nat) (i : Nat) : SMat :=
  ⟨nd * sizes.getD i 0, nd * sizes.sum,
    fun r c => if c = nd * ((sizes.take i).sum) + r then 1 else 0⟩

/-- Modelled from the spec: prolongation places a local vector of grid `i`
back into the global concatenated space, at the grid's own block of rows. -/
def prolongation (nd : Nat) (sizes : List Nat) (i : Nat) : SMat :=
  ⟨nd * sizes.sum, nd * sizes.getD i 0,
    fun r c => if r = nd * ((sizes.take i).sum) + c then 1 else 0⟩

/-- Modelled from the spec: restriction to a list of grids is the vertical
stack of the per-grid restrictions, in list order. -/
def restrictionList (nd : Nat) (sizes : List Nat) : List Nat → SMat
  | [] => ⟨0, nd * sizes.sum, fun _ _ => 0⟩
  | i :: rest => vstack (restriction nd sizes i) (restrictionList nd sizes rest)

/-- Modelled from the spec: prolongation from a list of grids is the
horizontal stack of the per-grid prolongations, in list order. -/
def prolongationList (nd : Nat) (sizes : List Nat) : List Nat → SMat
  | [] => ⟨nd * sizes.sum, 0, fun _ _ => 0⟩
  | i :: rest => hstack (prolongation nd sizes i) (prolongationList nd sizes rest)

/-- Modelled from the spec: `SubdomainProjections.cell_restriction` for the
`i`-th grid of the list the object was built over. -/
def cell_restriction (grids : List Grid) (nd i : Nat) : SMat :=
  restriction nd (grids.map Grid.num_cells) i

/-- Modelled from the spec: `SubdomainProjections.cell_prolongation`. -/
def cell_prolongation (grids : List Grid) (nd i : Nat) : SMat :=
  prolongation nd (grids.map Grid.num_cells) i

/-- Modelled from the spec: `SubdomainProjections.face_restriction`. -/
def face_restriction (grids : List Grid) (nd i : Nat) : SMat :=
  restriction nd (grids.map Grid.num_faces) i

/-- Modelled from the spec: `SubdomainProjections.face_prolongation`. -/
def face_prolongation (grids : List Grid) (nd i : Nat) : SMat :=
  prolongation nd (grids.map Grid.num_faces) i

/-- Modelled from the spec: `cell_restriction` applied to a list of grids
(given by their indices in the construction list). -/
def cell_restrictionList (grids : List Grid) (nd : Nat) (l : List Nat) : SMat :=
  restrictionList nd (grids.map Grid.num_cells) l

/-- Modelled from the spec: `cell_prolongation` applied to a list of grids. -/
def cell_prolongationList (grids : List Grid) (nd : Nat) (l : List Nat) : SMat :=
  prolongationList nd (grids.map Grid.num_cells) l

/-- Modelled from the spec: `face_restriction` applied to a list of grids. -/
def face_restrictionList (grids : List Grid) (nd : Nat) (l : List Nat) : SMat :=
  restrictionList nd (grids.map Grid.num_faces) l

/-- Modelled from the spec: `face_prolongation` applied to a list of grids. -/
def face_prolongationList (grids : List Grid) (nd : Nat) (l : List Nat) : SMat :=
  prolongationList nd (grids.map Grid.num_faces) l

/- ### Mortar (interface) projections -/

/-- Modelled from the spec: an interface (mortar grid) between two
subdomains.  Its mortar cells come in two geometric sides of `side_cells`
cells each (the interface cell count splits at its midpoint); `cell_face`
pairs each mortar cell (interface-local order, first side then second side)
with a face of the higher-dimensional neighbour, in the global face
numbering; `w` is the geometric averaging weight attached to each mortar
cell by the `_avg` projection variants.  The spec leaves the `_avg` weights
ambiguous in general and implicit unit weighting is the observed behaviour,
so the weights are kept as explicit data with unit weights reproducing the
tested uniform matching configuration. -/
structure Interface where
  side_cells : Nat
  cell_face : List Nat
  w : List ℚ

/-- Default interface for out-of-range lookups. -/
def intfDefault : Interface := ⟨0, [], []⟩

/-- `nd`-expansion of a cell→face pairing: each scalar pair becomes `nd`
consecutive pairs, in a fixed per-entity ordering. -/
def expandPairs (nd : Nat) : List Nat → List Nat
  | [] => []
  | f :: rest => (List.range nd).map (fun d => nd * f + d) ++ expandPairs nd rest

/-- `nd`-expansion of per-cell averaging weights: each weight is repeated
`nd` times. -/
def expandW (nd : Nat) : List ℚ → List ℚ
  | [] => []
  | x :: rest => List.replicate nd x ++ expandW nd rest

/-- Modelled from the spec: the mortar-cell → primary-face pairing of a
`MortarProjections` object built over a list of interfaces, concatenated in
the listed interface order and `nd`-expanded. -/
def pairingList (nd : Nat) : List Interface → List Nat
  | [] => []
  | I :: rest => expandPairs nd I.cell_face ++ pairingList nd rest

/-- Modelled from the spec: the averaging weights of a `MortarProjections`
object, concatenated in the listed interface order and `nd`-expanded. -/
def weightsList (nd : Nat) : List Interface → List ℚ
  | [] => []
  | I :: rest => expandW nd I.w ++ weightsList nd rest

/-- Modelled from the spec: `MortarProjections.mortar_to_primary_int`, the
plain 0/1 selection mapping each mortar cell to its paired primary face;
`NF` is the total primary face DOF count. -/
def mortar_to_primary_int (intfs : List Interface) (nd NF : Nat) : SMat :=
  ⟨NF, (pairingList nd intfs).length,
    fun r c => if (pairingList nd intfs).getD c 0 = r then 1 else 0⟩

/-- Modelled from the spec: `MortarProjections.mortar_to_primary_avg`, the
same sparsity pattern as the `_int` variant with the averaging weight of the
mortar cell as the nonzero entry. -/
def mortar_to_primary_avg (intfs : List Interface) (nd NF : Nat) : SMat :=
  ⟨NF, (pairingList nd intfs).length,
    fun r c => if (pairingList nd intfs).getD c 0 = r then
      (weightsList nd intfs).getD c 1 else 0⟩

/-- Modelled from the spec: `MortarProjections.primary_to_mortar_int`, the
plain 0/1 selection reading, for each mortar cell, its paired primary
face. -/
def primary_to_mortar_int (intfs : List Interface) (nd NF : Nat) : SMat :=
  ⟨(pairingList nd intfs).length, NF,
    fun r c => if (pairingList nd intfs).getD r 0 = c then 1 else 0⟩

/-- Modelled from the spec: `MortarProjections.primary_to_mortar_avg`, the
same sparsity pattern as the `_int` variant with the averaging weight of the
mortar cell as the nonzero entry. -/
def primary_to_mortar_avg (intfs : List Interface) (nd NF : Nat) : SMat :=
  ⟨(pairingList nd intfs).length, NF,
    fun r c => if (pairingList nd intfs).getD r 0 = c then
      (weightsList nd intfs).getD r 1 else 0⟩

/-- Modelled from the spec: the diagonal of the mortar side-sign matrix.
Interface blocks follow the listed interface order; within each interface the
first side's cells (`side_cells` cells, `nd` entries per cell) carry −1 and
the second side's cells carry +1. -/
def signList (nd : Nat) : List Interface → List ℚ
  | [] => []
  | I :: rest =>
      (List.replicate (I.side_cells * nd) (-1) ++
        List.replicate (I.side_cells * nd) 1) ++ signList nd rest

/-- Offset of interface `t`'s diagonal block inside the sign matrix. -/
def signOffset (nd : Nat) (intfs : List Interface) (t : Nat) : Nat :=
  (((intfs.take t).map (fun I => I.side_cells * nd + I.side_cells * nd))).sum

/-- Modelled from the spec: `MortarProjections.sign_of_mortar_sides`, the
diagonal matrix over the full set of mortar cells across all requested
interfaces assigning −1 to the first half of each interface's cells and +1
to the second half. -/
def sign_of_mortar_sides (intfs : List Interface) (nd : Nat) : SMat :=
  diagMat (signList nd intfs)

/- ### List helper lemmas -/

theorem getD_append_left {α : Type} (l1 l2 : List α) (k : Nat) (d : α)
    (h : k < l1.length) : (l1 ++ l2).getD k d = l1.getD k d := by
  induction l1 generalizing k with
  | nil => simp at h
  | cons a t ih =>
    cases k with
    | zero => rfl
    | succ k => exact ih k (by simpa using h)

theorem getD_append_right {α : Type} (l1 l2 : List α) (k : Nat) (d : α) :
    (l1 ++ l2).getD (l1.length + k) d = l2.getD k d := by
  induction l1 with
  | nil => simp
  | cons a t ih => simpa [Nat.succ_add] using ih

theorem getD_replicate {α : Type} (n k : Nat) (a d : α) (h : k < n) :
    (List.replicate n a).getD k d = a := by
  induction n generalizing k with
  | zero => simp at h
  | succ n ih =>
    cases k with
    | zero => rfl
    | succ k => exact ih k (by omega)

theorem getD_set_ne {α : Type} (l : List α) (k1 k2 : Nat) (x : α) (d : α)
    (h : k1 ≠ k2) : (l.set k1 x).getD k2 d = l.getD k2 d := by
  induction l generalizing k1 k2 with
  | nil => rfl
  | cons a t ih =>
    cases k1 with
    | zero =>
      cases k2 with
      | zero => exact absurd rfl h
      | succ k2 => rfl
    | succ k1 =>
      cases k2 with
      | zero => rfl
      | succ k2 => exact ih k1 k2 (by omega)

theorem getD_mem {α : Type} (l : List α) (k : Nat) (d : α) (h : k < l.length) :
    l.getD k d ∈ l := by
  induction l generalizing k with
  | nil => simp at h
  | cons a t ih =>
    cases k with
    | zero => exact List.mem_cons_self a t
    | succ k => exact List.mem_cons_of_mem a (ih k (by simpa using h))

theorem getD_zipWith (f : ℚ → ℚ → ℚ) (l1 l2 : List ℚ) (k : Nat)
    (h1 : k < l1.length) (h2 : k < l2.length) :
    (List.zipWith f l1 l2).getD k 0 = f (l1.getD k 0) (l2.getD k 0) := by
  induction l1 generalizing l2 k with
  | nil => simp at h1
  | cons a t ih =>
    cases l2 with
    | nil => simp at h2
    | cons b s =>
      cases k with
      | zero => rfl
      | succ k => exact ih s k (by simpa using h1) (by simpa using h2)

theorem length_zipWith (f : ℚ → ℚ → ℚ) (l1 l2 : List ℚ) :
    (List.zipWith f l1 l2).length = min l1.length l2.length := by
  simp


theorem getD_map (f : ℚ → ℚ) (l : List ℚ) (k : Nat) (d1 d2 : ℚ)
    (h : k < l.length) : (l.map f).getD k d1 = f (l.getD k d2) := by
  induction l generalizing k with
  | nil => simp at h
  | cons a t ih =>
    cases k with
    | zero => rfl
    | succ k => exact ih k (by simpa using h)

theorem getD_len_le {α : Type} (l : List α) (k : Nat) (d : α)
    (h : l.length ≤ k) : l.getD k d = d := by
  induction l generalizing k with
  | nil => rfl
  | cons a t ih =>
    cases k with
    | zero => simp at h
    | succ k => exact ih k (by simpa using h)

/- ### Matrix helper lemmas -/

theorem matMul_diag_entry (l : List ℚ) (A : SMat) (i j : Nat)
    (h : i < l.length) :
    (matMul (diagMat l) A).entry i j = l.getD i 0 * A.entry i j := by
  show (∑ k ∈ Finset.range l.length,
      (if i = k then l.getD i 0 else 0) * A.entry k j) = _
  rw [Finset.sum_eq_single i]
  · simp
  · intro b _ hb
    rw [if_neg (fun hc : i = b => hb (Eq.symm hc)), zero_mul]
  · intro hni
    exact absurd (Finset.mem_range.mpr h) hni

/- ### C2: additivity of AD pairs -/

/-- C2: for AD value/Jacobian pairs `a`, `b` with equal value lengths,
`(a+b).value = a.value + b.value` elementwise and `(a+b).jacobian =
a.jacobian + b.jacobian` entrywise, and running the addition on a store of
AD objects leaves every existing object — in particular both operands —
unchanged. -/
theorem ad_add_spec (a b : Ad_array) (h : a.val.length = b.val.length) :
    (Ad_array.add a b).val.length = a.val.length ∧
    (∀ k, k < a.val.length →
      (Ad_array.add a b).val.getD k 0 = a.val.getD k 0 + b.val.getD k 0) ∧
    ((Ad_array.add a b).jac.rows = a.jac.rows ∧
      (Ad_array.add a b).jac.cols = a.jac.cols ∧
      ∀ i j, (Ad_array.add a b).jac.entry i j =
        a.jac.entry i j + b.jac.entry i j) ∧
    (∀ (s : List Ad_array) (i j k : Nat), k < s.length →
      (runBinOp Ad_array.add s i j).getD k adDefault = s.getD k adDefault) := by
  refine ⟨by simp [Ad_array.add, h], ?_, ⟨rfl, rfl, fun i j => rfl⟩, ?_⟩
  · intro k hk
    exact getD_zipWith _ _ _ k hk (h ▸ hk)
  · intro s i j k hk
    exact getD_append_left s _ k adDefault hk

/-- Witness for C2 at the concrete pair of the repository test
(`a = (4, jac 1)`, `b = (9, jac 3)`). -/
theorem ad_add_spec_witness :
    (Ad_array.mk [4] ⟨1, 1, fun _ _ => 1⟩).val.length =
      (Ad_array.mk [9] ⟨1, 1, fun _ _ => 3⟩).val.length ∧
    ((Ad_array.add (Ad_array.mk [4] ⟨1, 1, fun _ _ => 1⟩)
        (Ad_array.mk [9] ⟨1, 1, fun _ _ => 3⟩)).val.length =
      (Ad_array.mk [4] ⟨1, 1, fun _ _ => 1⟩).val.length ∧
    (∀ k, k < (Ad_array.mk [4] ⟨1, 1, fun _ _ => 1⟩).val.length →
      (Ad_array.add (Ad_array.mk [4] ⟨1, 1, fun _ _ => 1⟩)
          (Ad_array.mk [9] ⟨1, 1, fun _ _ => 3⟩)).val.getD k 0 =
        (Ad_array.mk [4] ⟨1, 1, fun _ _ => 1⟩).val.getD k 0 +
          (Ad_array.mk [9] ⟨1, 1, fun _ _ => 3⟩).val.getD k 0) ∧
    ((Ad_array.add (Ad_array.mk [4] ⟨1, 1, fun _ _ => 1⟩)
        (Ad_array.mk [9] ⟨1, 1, fun _ _ => 3⟩)).jac.rows =
      (Ad_array.mk [4] ⟨1, 1, fun _ _ => 1⟩).jac.rows ∧
      (Ad_array.add (Ad_array.mk [4] ⟨1, 1, fun _ _ => 1⟩)
          (Ad_array.mk [9] ⟨1, 1, fun _ _ => 3⟩)).jac.cols =
        (Ad_array.mk [4] ⟨1, 1, fun _ _ => 1⟩).jac.cols ∧
      ∀ i j, (Ad_array.add (Ad_array.mk [4] ⟨1, 1, fun _ _ => 1⟩)
          (Ad_array.mk [9] ⟨1, 1, fun _ _ => 3⟩)).jac.entry i j =
        (Ad_array.mk [4] ⟨1, 1, fun _ _ => 1⟩).jac.entry i j +
          (Ad_array.mk [9] ⟨1, 1, fun _ _ => 3⟩).jac.entry i j) ∧
    (∀ (s : List Ad_array) (i j k : Nat), k < s.length →
      (runBinOp Ad_array.add s i j).getD k adDefault = s.getD k adDefault)) :=
  ⟨rfl, ad_add_spec (Ad_array.mk [4] ⟨1, 1, fun _ _ => 1⟩)
    (Ad_array.mk [9] ⟨1, 1, fun _ _ => 3⟩) rfl⟩

/- ### C3: product rule for AD pairs -/

/-- C3: for AD pairs `u`, `v` of equal length, `(u*v).value` is the
elementwise product of the values and `(u*v).jacobian = diag(v.value)·
u.jacobian + diag(u.value)·v.jacobian` entrywise, and running the product on
a store of AD objects leaves every existing object — in particular both
operands — unchanged. -/
theorem ad_mul_spec (u v : Ad_array) (h : u.val.length = v.val.length) :
    (Ad_array.mul u v).val.length = u.val.length ∧
    (∀ k, k < u.val.length →
      (Ad_array.mul u v).val.getD k 0 = u.val.getD k 0 * v.val.getD k 0) ∧
    (∀ i, i < u.val.length → ∀ j,
      (Ad_array.mul u v).jac.entry i j =
        v.val.getD i 0 * u.jac.entry i j + u.val.getD i 0 * v.jac.entry i j) ∧
    (∀ (s : List Ad_array) (i j k : Nat), k < s.length →
      (runBinOp Ad_array.mul s i j).getD k adDefault = s.getD k adDefault) := by
  refine ⟨by simp [Ad_array.mul, h], ?_, ?_, ?_⟩
  · intro k hk
    exact getD_zipWith _ _ _ k hk (h ▸ hk)
  · intro i hi j
    show (matMul (diagMat v.val) u.jac).entry i j +
        (matMul (diagMat u.val) v.jac).entry i j = _
    rw [matMul_diag_entry v.val u.jac i j (h ▸ hi),
      matMul_diag_entry u.val v.jac i j hi]
  · intro s i j k hk
    exact getD_append_left s _ k adDefault hk

/-- Witness for C3 at the concrete pair of the repository test
(`u = (3, jac 3)`, `v = (2, jac -4)`). -/
theorem ad_mul_spec_witness :
    (Ad_array.mk [3] ⟨1, 1, fun _ _ => 3⟩).val.length =
      (Ad_array.mk [2] ⟨1, 1, fun _ _ => -4⟩).val.length ∧
    ((Ad_array.mul (Ad_array.mk [3] ⟨1, 1, fun _ _ => 3⟩)
        (Ad_array.mk [2] ⟨1, 1, fun _ _ => -4⟩)).val.length =
      (Ad_array.mk [3] ⟨1, 1, fun _ _ => 3⟩).val.length ∧
    (∀ k, k < (Ad_array.mk [3] ⟨1, 1, fun _ _ => 3⟩).val.length →
      (Ad_array.mul (Ad_array.mk [3] ⟨1, 1, fun _ _ => 3⟩)
          (Ad_array.mk [2] ⟨1, 1, fun _ _ => -4⟩)).val.getD k 0 =
        (Ad_array.mk [3] ⟨1, 1, fun _ _ => 3⟩).val.getD k 0 *
          (Ad_array.mk [2] ⟨1, 1, fun _ _ => -4⟩).val.getD k 0) ∧
    (∀ i, i < (Ad_array.mk [3] ⟨1, 1, fun _ _ => 3⟩).val.length → ∀ j,
      (Ad_array.mul (Ad_array.mk [3] ⟨1, 1, fun _ _ => 3⟩)
          (Ad_array.mk [2] ⟨1, 1, fun _ _ => -4⟩)).jac.entry i j =
        (Ad_array.mk [2] ⟨1, 1, fun _ _ => -4⟩).val.getD i 0 *
            (Ad_array.mk [3] ⟨1, 1, fun _ _ => 3⟩).jac.entry i j +
          (Ad_array.mk [3] ⟨1, 1, fun _ _ => 3⟩).val.getD i 0 *
            (Ad_array.mk [2] ⟨1, 1, fun _ _ => -4⟩).jac.entry i j) ∧
    (∀ (s : List Ad_array) (i j k : Nat), k < s.length →
      (runBinOp Ad_array.mul s i j).getD k adDefault = s.getD k adDefault)) :=
  ⟨rfl, ad_mul_spec (Ad_array.mk [3] ⟨1, 1, fun _ _ => 3⟩)
    (Ad_array.mk [2] ⟨1, 1, fun _ _ => -4⟩) rfl⟩

/- ### C7: quotient rule and division-by-zero domain error -/

/-- C7: for AD pairs `u`, `v` of equal length, if some entry of `v.value` is
exactly zero the division fails with a domain error at the point of
evaluation; otherwise it succeeds and the result obeys the quotient rule
`(u/v).jacobian = (v.value·u.jacobian − u.value·v.jacobian)/v.value²`
entrywise. -/
theorem ad_div_spec (u v : Ad_array) (h : u.val.length = v.val.length) :
    (∀ x ∈ v.val, x = 0 → Ad_array.div u v = Except.error "DomainError") ∧
    ((∀ x ∈ v.val, x ≠ 0) →
      ∃ q : Ad_array, Ad_array.div u v = Except.ok q ∧
        q.val.length = u.val.length ∧
        (∀ k, k < u.val.length →
          q.val.getD k 0 = u.val.getD k 0 / v.val.getD k 0) ∧
        (∀ i, i < u.val.length → ∀ j,
          q.jac.entry i j =
            (v.val.getD i 0 * u.jac.entry i j -
              u.val.getD i 0 * v.jac.entry i j) / (v.val.getD i 0) ^ 2)) := by
  constructor
  · intro x hx hx0
    have hany : v.val.any (· == 0) = true :=
      List.any_eq_true.mpr ⟨x, hx, by simp [hx0]⟩
    simp [Ad_array.div, hany]
  · intro hnz
    have hfalse : ¬(v.val.any (· == 0) = true) := by
      intro hc
      obtain ⟨x, hx, hx0⟩ := List.any_eq_true.mp hc
      exact hnz x hx (by simpa using hx0)
    refine ⟨⟨List.zipWith (· / ·) u.val v.val,
      matMul (diagMat (v.val.map (fun x => 1 / (x * x))))
        (matSub (matMul (diagMat v.val) u.jac)
          (matMul (diagMat u.val) v.jac))⟩, ?_, by simp [h], ?_, ?_⟩
    · unfold Ad_array.div
      rw [if_neg hfalse]
    · intro k hk
      exact getD_zipWith _ _ _ k hk (h ▸ hk)
    · intro i hi j
      have hi2 : i < v.val.length := h ▸ hi
      have hmap : i < (v.val.map (fun x => 1 / (x * x))).length := by
        simpa using hi2
      show (matMul (diagMat (v.val.map (fun x => 1 / (x * x))))
        (matSub (matMul (diagMat v.val) u.jac)
          (matMul (diagMat u.val) v.jac))).entry i j = _
      rw [matMul_diag_entry _ _ i j hmap,
        getD_map (fun x => 1 / (x * x)) v.val i 0 0 hi2]
      show 1 / (v.val.getD i 0 * v.val.getD i 0) *
        ((matMul (diagMat v.val) u.jac).entry i j -
          (matMul (diagMat u.val) v.jac).entry i j) = _
      rw [matMul_diag_entry v.val u.jac i j hi2,
        matMul_diag_entry u.val v.jac i j hi]
      ring

/-- Witness for C7 at the concrete pair of the repository test
(`u = (8, jac 12)`, `v = (4, jac 4)`). -/
theorem ad_div_spec_witness :
    (Ad_array.mk [8] ⟨1, 1, fun _ _ => 12⟩).val.length =
      (Ad_array.mk [4] ⟨1, 1, fun _ _ => 4⟩).val.length ∧
    ((∀ x ∈ (Ad_array.mk [4] ⟨1, 1, fun _ _ => 4⟩).val, x = 0 →
      Ad_array.div (Ad_array.mk [8] ⟨1, 1, fun _ _ => 12⟩)
          (Ad_array.mk [4] ⟨1, 1, fun _ _ => 4⟩) =
        Except.error "DomainError") ∧
    ((∀ x ∈ (Ad_array.mk [4] ⟨1, 1, fun _ _ => 4⟩).val, x ≠ 0) →
      ∃ q : Ad_array,
        Ad_array.div (Ad_array.mk [8] ⟨1, 1, fun _ _ => 12⟩)
            (Ad_array.mk [4] ⟨1, 1, fun _ _ => 4⟩) = Except.ok q ∧
        q.val.length = (Ad_array.mk [8] ⟨1, 1, fun _ _ => 12⟩).val.length ∧
        (∀ k, k < (Ad_array.mk [8] ⟨1, 1, fun _ _ => 12⟩).val.length →
          q.val.getD k 0 =
            (Ad_array.mk [8] ⟨1, 1, fun _ _ => 12⟩).val.getD k 0 /
              (Ad_array.mk [4] ⟨1, 1, fun _ _ => 4⟩).val.getD k 0) ∧
        (∀ i, i < (Ad_array.mk [8] ⟨1, 1, fun _ _ => 12⟩).val.length → ∀ j,
          q.jac.entry i j =
            ((Ad_array.mk [4] ⟨1, 1, fun _ _ => 4⟩).val.getD i 0 *
                (Ad_array.mk [8] ⟨1, 1, fun _ _ => 12⟩).jac.entry i j -
              (Ad_array.mk [8] ⟨1, 1, fun _ _ => 12⟩).val.getD i 0 *
                (Ad_array.mk [4] ⟨1, 1, fun _ _ => 4⟩).jac.entry i j) /
              ((Ad_array.mk [4] ⟨1, 1, fun _ _ => 4⟩).val.getD i 0) ^ 2))) :=
  ⟨rfl, ad_div_spec (Ad_array.mk [8] ⟨1, 1, fun _ _ => 12⟩)
    (Ad_array.mk [4] ⟨1, 1, fun _ _ => 4⟩) rfl⟩

/- ### C9: copy isolation -/

/-- C9: copying the AD pair at store index `i` appends an independent pair
`b` at index `s.length` holding the same value and Jacobian, leaves every
existing object untouched, and every subsequent mutation of either pair —
replacing the value, replacing the Jacobian, or in-place element assignment
into either — leaves the other pair's value and Jacobian unchanged. -/
theorem ad_copy_isolation (s : List Ad_array) (i : Nat) (hi : i < s.length) :
    (copyOp s i).getD s.length adDefault = s.getD i adDefault ∧
    (∀ k, k < s.length →
      (copyOp s i).getD k adDefault = s.getD k adDefault) ∧
    (∀ v, (setVal (copyOp s i) i v).getD s.length adDefault =
      (copyOp s i).getD s.length adDefault) ∧
    (∀ v, (setVal (copyOp s i) s.length v).getD i adDefault =
      (copyOp s i).getD i adDefault) ∧
    (∀ J, (setJac (copyOp s i) i J).getD s.length adDefault =
      (copyOp s i).getD s.length adDefault) ∧
    (∀ J, (setJac (copyOp s i) s.length J).getD i adDefault =
      (copyOp s i).getD i adDefault) ∧
    (∀ idx x, (setValElem (copyOp s i) i idx x).getD s.length adDefault =
      (copyOp s i).getD s.length adDefault) ∧
    (∀ idx x, (setValElem (copyOp s i) s.length idx x).getD i adDefault =
      (copyOp s i).getD i adDefault) ∧
    (∀ r c x, (setJacElem (copyOp s i) i r c x).getD s.length adDefault =
      (copyOp s i).getD s.length adDefault) ∧
    (∀ r c x, (setJacElem (copyOp s i) s.length r c x).getD i adDefault =
      (copyOp s i).getD i adDefault) := by
  have hne : i ≠ s.length := Nat.ne_of_lt hi
  have hcopy : (copyOp s i).getD s.length adDefault = s.getD i adDefault := by
    have h0 := getD_append_right s [s.getD i adDefault] 0 adDefault
    simp only [Nat.add_zero] at h0
    exact h0
  refine ⟨hcopy, ?_, ?_, ?_, ?_, ?_, ?_, ?_, ?_, ?_⟩
  · intro k hk
    exact getD_append_left s _ k adDefault hk
  · intro v
    exact getD_set_ne _ i s.length _ adDefault hne
  · intro v
    exact getD_set_ne _ s.length i _ adDefault (Ne.symm hne)
  · intro J
    exact getD_set_ne _ i s.length _ adDefault hne
  · intro J
    exact getD_set_ne _ s.length i _ adDefault (Ne.symm hne)
  · intro idx x
    exact getD_set_ne _ i s.length _ adDefault hne
  · intro idx x
    exact getD_set_ne _ s.length i _ adDefault (Ne.symm hne)
  · intro r c x
    exact getD_set_ne _ i s.length _ adDefault hne
  · intro r c x
    exact getD_set_ne _ s.length i _ adDefault (Ne.symm hne)

/-- Witness for C9 on a one-object store holding the pair of the repository
test (`a = (1, jac 0)`). -/
theorem ad_copy_isolation_witness :
    0 < [Ad_array.mk [1] ⟨1, 1, fun _ _ => 0⟩].length ∧
    ((copyOp [Ad_array.mk [1] ⟨1, 1, fun _ _ => 0⟩] 0).getD
        [Ad_array.mk [1] ⟨1, 1, fun _ _ => 0⟩].length adDefault =
      [Ad_array.mk [1] ⟨1, 1, fun _ _ => 0⟩].getD 0 adDefault ∧
    (∀ k, k < [Ad_array.mk [1] ⟨1, 1, fun _ _ => 0⟩].length →
      (copyOp [Ad_array.mk [1] ⟨1, 1, fun _ _ => 0⟩] 0).getD k adDefault =
        [Ad_array.mk [1] ⟨1, 1, fun _ _ => 0⟩].getD k adDefault) ∧
    (∀ v, (setVal (copyOp [Ad_array.mk [1] ⟨1, 1, fun _ _ => 0⟩] 0) 0 v).getD
        [Ad_array.mk [1] ⟨1, 1, fun _ _ => 0⟩].length adDefault =
      (copyOp [Ad_array.mk [1] ⟨1, 1, fun _ _ => 0⟩] 0).getD
        [Ad_array.mk [1] ⟨1, 1, fun _ _ => 0⟩].length adDefault) ∧
    (∀ v, (setVal (copyOp [Ad_array.mk [1] ⟨1, 1, fun _ _ => 0⟩] 0)
        [Ad_array.mk [1] ⟨1, 1, fun _ _ => 0⟩].length v).getD 0 adDefault =
      (copyOp [Ad_array.mk [1] ⟨1, 1, fun _ _ => 0⟩] 0).getD 0 adDefault) ∧
    (∀ J, (setJac (copyOp [Ad_array.mk [1] ⟨1, 1, fun _ _ => 0⟩] 0) 0 J).getD
        [Ad_array.mk [1] ⟨1, 1, fun _ _ => 0⟩].length adDefault =
      (copyOp [Ad_array.mk [1] ⟨1, 1, fun _ _ => 0⟩] 0).getD
        [Ad_array.mk [1] ⟨1, 1, fun _ _ => 0⟩].length adDefault) ∧
    (∀ J, (setJac (copyOp [Ad_array.mk [1] ⟨1, 1, fun _ _ => 0⟩] 0)
        [Ad_array.mk [1] ⟨1, 1, fun _ _ => 0⟩].length J).getD 0 adDefault =
      (copyOp [Ad_array.mk [1] ⟨1, 1, fun _ _ => 0⟩] 0).getD 0 adDefault) ∧
    (∀ idx x, (setValElem (copyOp [Ad_array.mk [1] ⟨1, 1, fun _ _ => 0⟩] 0)
        0 idx x).getD
        [Ad_array.mk [1] ⟨1, 1, fun _ _ => 0⟩].length adDefault =
      (copyOp [Ad_array.mk [1] ⟨1, 1, fun _ _ => 0⟩] 0).getD
        [Ad_array.mk [1] ⟨1, 1, fun _ _ => 0⟩].length adDefault) ∧
    (∀ idx x, (setValElem (copyOp [Ad_array.mk [1] ⟨1, 1, fun _ _ => 0⟩] 0)
        [Ad_array.mk [1] ⟨1, 1, fun _ _ => 0⟩].length idx x).getD 0 adDefault =
      (copyOp [Ad_array.mk [1] ⟨1, 1, fun _ _ => 0⟩] 0).getD 0 adDefault) ∧
    (∀ r c x, (setJacElem (copyOp [Ad_array.mk [1] ⟨1, 1, fun _ _ => 0⟩] 0)
        0 r c x).getD
        [Ad_array.mk [1] ⟨1, 1, fun _ _ => 0⟩].length adDefault =
      (copyOp [Ad_array.mk [1] ⟨1, 1, fun _ _ => 0⟩] 0).getD
        [Ad_array.mk [1] ⟨1, 1, fun _ _ => 0⟩].length adDefault) ∧
    (∀ r c x, (setJacElem (copyOp [Ad_array.mk [1] ⟨1, 1, fun _ _ => 0⟩] 0)
        [Ad_array.mk [1] ⟨1, 1, fun _ _ => 0⟩].length r c x).getD 0 adDefault =
      (copyOp [Ad_array.mk [1] ⟨1, 1, fun _ _ => 0⟩] 0).getD 0 adDefault)) :=
  ⟨by decide, ad_copy_isolation [Ad_array.mk [1] ⟨1, 1, fun _ _ => 0⟩] 0
    (by decide)⟩

/- ### Registry slicing lemmas -/

theorem drop_append_len {α : Type} (l1 l2 : List α) (n : Nat) :
    (l1 ++ l2).drop (l1.length + n) = l2.drop n := by
  induction l1 with
  | nil => simp
  | cons a t ih => simp [Nat.succ_add, ih]

theorem take_append_len {α : Type} (l1 l2 : List α) :
    (l1 ++ l2).take l1.length = l1 := by
  induction l1 with
  | nil => simp
  | cons a t ih => simp [ih]

theorem slice_assembleWith (f : Block → List ℚ) (reg : List Block) (i : Nat)
    (hw : ∀ b ∈ reg, (f b).length = b.size) (hi : i < reg.length) :
    slice (assembleWith f reg) (offsetR reg i) (reg.getD i blockDefault).size
      = f (reg.getD i blockDefault) := by
  induction reg generalizing i with
  | nil => simp at hi
  | cons b rest ih =>
    have hb : (f b).length = b.size := hw b (List.mem_cons_self b rest)
    cases i with
    | zero =>
      show slice (f b ++ assembleWith f rest) 0 b.size = f b
      unfold slice
      rw [List.drop_zero, ← hb, take_append_len]
    | succ i =>
      have hoff : offsetR (b :: rest) (i + 1) = b.size + offsetR rest i := by
        simp [offsetR]
      show slice (f b ++ assembleWith f rest) (offsetR (b :: rest) (i + 1))
          (rest.getD i blockDefault).size = f (rest.getD i blockDefault)
      unfold slice
      rw [hoff, ← hb, drop_append_len]
      exact ih i (fun b2 hb2 => hw b2 (List.mem_cons_of_mem b hb2))
        (by simpa using hi)

/- ### C4: merged-variable evaluation -/

/-- C4: evaluating a `MergedVariable` yields the concatenation of its
constituent variables' evaluated values in the declared order; its Jacobian
has exactly the registry's total DOF count of columns; and evaluating it
with no explicit state vector (falling back to each sub-variable's stored
current-iterate state) yields the same value as evaluating it with the
assembled stored current-iterate vector. -/
theorem merged_variable_spec (reg : List Block) (mv : List Nat) (s : List ℚ)
    (hw : ∀ b ∈ reg, b.iterate.length = b.size)
    (hmv : ∀ i ∈ mv, i < reg.length) :
    evalMergedVal reg s mv = (mv.map (fun i => evalVarVal reg i s)).flatten ∧
    (evalMergedJac reg mv).cols = num_dofs reg ∧
    evalMergedValNone reg mv = evalMergedVal reg (assembleIterate reg) mv := by
  refine ⟨?_, ?_, ?_⟩
  · induction mv with
    | nil => rfl
    | cons i rest ih =>
      show evalVarVal reg i s ++ evalMergedVal reg s rest = _
      rw [ih (fun k hk => hmv k (List.mem_cons_of_mem i hk))]
      simp
  · cases mv with
    | nil => rfl
    | cons i rest => rfl
  · induction mv with
    | nil => rfl
    | cons i rest ih =>
      have hi : i < reg.length := hmv i (List.mem_cons_self i rest)
      show (reg.getD i blockDefault).iterate ++ evalMergedValNone reg rest = _
      rw [ih (fun k hk => hmv k (List.mem_cons_of_mem i hk))]
      show _ = evalVarVal reg i (assembleIterate reg) ++ _
      rw [show evalVarVal reg i (assembleIterate reg)
          = (reg.getD i blockDefault).iterate from
        slice_assembleWith Block.iterate reg i hw hi]

/-- Witness for C4 on a concrete two-block registry. -/
theorem merged_variable_spec_witness :
    (∀ b ∈ [Block.mk 2 [1, 2] [5, 6], Block.mk 1 [3] [7]],
      b.iterate.length = b.size) ∧
    (∀ i ∈ [0, 1], i < [Block.mk 2 [1, 2] [5, 6], Block.mk 1 [3] [7]].length) ∧
    (evalMergedVal [Block.mk 2 [1, 2] [5, 6], Block.mk 1 [3] [7]]
        [10, 20, 30] [0, 1] =
      (([0, 1] : List Nat).map (fun i =>
        evalVarVal [Block.mk 2 [1, 2] [5, 6], Block.mk 1 [3] [7]]
          i [10, 20, 30])).flatten ∧
    (evalMergedJac [Block.mk 2 [1, 2] [5, 6], Block.mk 1 [3] [7]]
        [0, 1]).cols =
      num_dofs [Block.mk 2 [1, 2] [5, 6], Block.mk 1 [3] [7]] ∧
    evalMergedValNone [Block.mk 2 [1, 2] [5, 6], Block.mk 1 [3] [7]] [0, 1] =
      evalMergedVal [Block.mk 2 [1, 2] [5, 6], Block.mk 1 [3] [7]]
        (assembleIterate [Block.mk 2 [1, 2] [5, 6], Block.mk 1 [3] [7]])
        [0, 1]) :=
  ⟨by decide, by decide,
    merged_variable_spec [Block.mk 2 [1, 2] [5, 6], Block.mk 1 [3] [7]]
      [0, 1] [10, 20, 30] (by decide) (by decide)⟩

/- ### C5: previous-timestep purity -/

/-- C5: evaluating a previous-timestep variable leaf returns a plain numeric
array — never an AD pair carrying a Jacobian — equal to the separately
stored previous-timestep array of the variable's DOF block, for every
supplied state vector argument (including none), so the result does not
depend on that argument. -/
theorem previous_timestep_spec (reg : List Block) (i : Nat)
    (hw : ∀ b ∈ reg, b.prev.length = b.size) (hi : i < reg.length) :
    ∀ st : Option (List ℚ),
      evalPrevVar reg i st =
        EvalResult.plain ((reg.getD i blockDefault).prev) := by
  intro st
  show EvalResult.plain (slice (assemblePrev reg) (offsetR reg i)
      (reg.getD i blockDefault).size) = _
  rw [show slice (assemblePrev reg) (offsetR reg i)
      (reg.getD i blockDefault).size = (reg.getD i blockDefault).prev from
    slice_assembleWith Block.prev reg i hw hi]

/-- Witness for C5 on a concrete two-block registry, checked at index 1. -/
theorem previous_timestep_spec_witness :
    (∀ b ∈ [Block.mk 2 [1, 2] [5, 6], Block.mk 1 [3] [7]],
      b.prev.length = b.size) ∧
    1 < [Block.mk 2 [1, 2] [5, 6], Block.mk 1 [3] [7]].length ∧
    (∀ st : Option (List ℚ),
      evalPrevVar [Block.mk 2 [1, 2] [5, 6], Block.mk 1 [3] [7]] 1 st =
        EvalResult.plain
          (([Block.mk 2 [1, 2] [5, 6], Block.mk 1 [3] [7]].getD 1
            blockDefault).prev)) :=
  ⟨by decide, by decide,
    previous_timestep_spec [Block.mk 2 [1, 2] [5, 6], Block.mk 1 [3] [7]] 1
      (by decide) (by decide)⟩

/- ### Subdomain projection lemmas -/

theorem restrictionList_cols (nd : Nat) (sizes : List Nat) (l : List Nat) :
    (restrictionList nd sizes l).cols = nd * sizes.sum := by
  cases l <;> rfl

theorem prolongationList_rows (nd : Nat) (sizes : List Nat) (l : List Nat) :
    (prolongationList nd sizes l).rows = nd * sizes.sum := by
  cases l <;> rfl

theorem prolongationList_cols (nd : Nat) (sizes : List Nat) (l : List Nat) :
    (prolongationList nd sizes l).cols = (restrictionList nd sizes l).rows := by
  induction l with
  | nil => rfl
  | cons i rest ih =>
    show (prolongation nd sizes i).cols + (prolongationList nd sizes rest).cols
      = (restriction nd sizes i).rows + (restrictionList nd sizes rest).rows
    rw [ih]
    rfl

theorem prolongationList_eq_transpose (nd : Nat) (sizes : List Nat)
    (l : List Nat) :
    matEq (prolongationList nd sizes l)
      (transposeM (restrictionList nd sizes l)) := by
  induction l with
  | nil => exact ⟨rfl, rfl, fun i _ j _ => rfl⟩
  | cons i rest ih =>
    refine ⟨rfl, ?_, ?_⟩
    · show (prolongation nd sizes i).cols +
          (prolongationList nd sizes rest).cols =
        (restriction nd sizes i).rows + (restrictionList nd sizes rest).rows
      rw [prolongationList_cols]
      rfl
    · intro r hr c hc
      show (if c < nd * sizes.getD i 0
          then (prolongation nd sizes i).entry r c
          else (prolongationList nd sizes rest).entry r
            (c - nd * sizes.getD i 0)) =
        (if c < nd * sizes.getD i 0
          then (restriction nd sizes i).entry c r
          else (restrictionList nd sizes rest).entry
            (c - nd * sizes.getD i 0) r)
      by_cases hcc : c < nd * sizes.getD i 0
      · rw [if_pos hcc, if_pos hcc]
        rfl
      · rw [if_neg hcc, if_neg hcc]
        have hr2 : r < (prolongationList nd sizes rest).rows := by
          rw [prolongationList_rows]
          exact hr
        have hcbound : c < nd * sizes.getD i 0 +
            (prolongationList nd sizes rest).cols := hc
        have hc2 : c - nd * sizes.getD i 0 <
            (prolongationList nd sizes rest).cols := by omega
        exact ih.2.2 r hr2 (c - nd * sizes.getD i 0) hc2

theorem take_sum_le (sizes : List Nat) (i : Nat) (hi : i < sizes.length) :
    (sizes.take i).sum + sizes.getD i 0 ≤ sizes.sum := by
  induction sizes generalizing i with
  | nil => simp at hi
  | cons a t ih =>
    cases i with
    | zero => simp
    | succ i =>
      have h2 := ih i (by simpa using hi)
      simp only [List.take_succ_cons, List.sum_cons, List.getD_cons_succ]
      omega

theorem restr_mul_prol (nd : Nat) (sizes : List Nat) (i : Nat)
    (hi : i < sizes.length) :
    matEq (matMul (restriction nd sizes i) (prolongation nd sizes i))
      (idMat (nd * sizes.getD i 0)) := by
  refine ⟨rfl, rfl, ?_⟩
  intro r hr c hc
  have hr2 : r < nd * sizes.getD i 0 := hr
  have hbound : nd * (sizes.take i).sum + r < nd * sizes.sum := by
    have hle := take_sum_le sizes i hi
    calc nd * (sizes.take i).sum + r
        < nd * (sizes.take i).sum + nd * sizes.getD i 0 := by omega
      _ = nd * ((sizes.take i).sum + sizes.getD i 0) := by ring
      _ ≤ nd * sizes.sum := Nat.mul_le_mul_left nd hle
  show (∑ k ∈ Finset.range (nd * sizes.sum),
      (if k = nd * (sizes.take i).sum + r then (1 : ℚ) else 0) *
      (if k = nd * (sizes.take i).sum + c then 1 else 0)) =
    (if r = c then 1 else 0)
  rw [Finset.sum_eq_single (nd * (sizes.take i).sum + r)]
  · rw [if_pos rfl, one_mul]
    by_cases hrc : r = c
    · rw [if_pos (by rw [hrc]), if_pos hrc]
    · rw [if_neg (by omega), if_neg hrc]
  · intro b _ hb
    rw [if_neg hb, zero_mul]
  · intro hnotmem
    exact absurd (Finset.mem_range.mpr hbound) hnotmem

/- ### C6: subdomain projections -/

/-- C6: for a `SubdomainProjections` object built over a list of grids with
any DOFs-per-entity factor `nd`, cell and face prolongation each equal the
transpose of the corresponding restriction — for a single grid and for a
list of grids — and restriction·prolongation is the identity on the grid's
own local block. -/
theorem subdomain_projection_spec (grids : List Grid) (nd : Nat)
    (l : List Nat) (i : Nat) (hi : i < grids.length) :
    matEq (cell_prolongationList grids nd l)
      (transposeM (cell_restrictionList grids nd l)) ∧
    matEq (face_prolongationList grids nd l)
      (transposeM (face_restrictionList grids nd l)) ∧
    matEq (cell_prolongation grids nd i)
      (transposeM (cell_restriction grids nd i)) ∧
    matEq (face_prolongation grids nd i)
      (transposeM (face_restriction grids nd i)) ∧
    matEq (matMul (cell_restriction grids nd i) (cell_prolongation grids nd i))
      (idMat (nd * (grids.map Grid.num_cells).getD i 0)) ∧
    matEq (matMul (face_restriction grids nd i) (face_prolongation grids nd i))
      (idMat (nd * (grids.map Grid.num_faces).getD i 0)) :=
  ⟨prolongationList_eq_transpose nd (grids.map Grid.num_cells) l,
   prolongationList_eq_transpose nd (grids.map Grid.num_faces) l,
   ⟨rfl, rfl, fun _ _ _ _ => rfl⟩,
   ⟨rfl, rfl, fun _ _ _ _ => rfl⟩,
   restr_mul_prol nd (grids.map Grid.num_cells) i (by simpa using hi),
   restr_mul_prol nd (grids.map Grid.num_faces) i (by simpa using hi)⟩

/-- Witness for C6 on two concrete grids with a vector (`nd = 2`) problem. -/
theorem subdomain_projection_spec_witness :
    1 < [Grid.mk 2 4, Grid.mk 1 3].length ∧
    (matEq (cell_prolongationList [Grid.mk 2 4, Grid.mk 1 3] 2 [0, 1])
      (transposeM (cell_restrictionList [Grid.mk 2 4, Grid.mk 1 3] 2 [0, 1])) ∧
    matEq (face_prolongationList [Grid.mk 2 4, Grid.mk 1 3] 2 [0, 1])
      (transposeM (face_restrictionList [Grid.mk 2 4, Grid.mk 1 3] 2 [0, 1])) ∧
    matEq (cell_prolongation [Grid.mk 2 4, Grid.mk 1 3] 2 1)
      (transposeM (cell_restriction [Grid.mk 2 4, Grid.mk 1 3] 2 1)) ∧
    matEq (face_prolongation [Grid.mk 2 4, Grid.mk 1 3] 2 1)
      (transposeM (face_restriction [Grid.mk 2 4, Grid.mk 1 3] 2 1)) ∧
    matEq (matMul (cell_restriction [Grid.mk 2 4, Grid.mk 1 3] 2 1)
        (cell_prolongation [Grid.mk 2 4, Grid.mk 1 3] 2 1))
      (idMat (2 * ([Grid.mk 2 4, Grid.mk 1 3].map Grid.num_cells).getD 1 0)) ∧
    matEq (matMul (face_restriction [Grid.mk 2 4, Grid.mk 1 3] 2 1)
        (face_prolongation [Grid.mk 2 4, Grid.mk 1 3] 2 1))
      (idMat (2 * ([Grid.mk 2 4, Grid.mk 1 3].map Grid.num_faces).getD 1 0))) :=
  ⟨by decide, subdomain_projection_spec [Grid.mk 2 4, Grid.mk 1 3] 2 [0, 1] 1
    (by decide)⟩

/- ### Sign-matrix lemmas -/

theorem signList_mem (nd : Nat) (intfs : List Interface) :
    ∀ x ∈ signList nd intfs, x = -1 ∨ x = 1 := by
  induction intfs with
  | nil =>
    intro x hx
    simp [signList] at hx
  | cons I rest ih =>
    intro x hx
    rcases List.mem_append.mp hx with h1 | h2
    · rcases List.mem_append.mp h1 with ha | hb
      · exact Or.inl (List.eq_of_mem_replicate ha)
      · exact Or.inr (List.eq_of_mem_replicate hb)
    · exact ih x h2

theorem signList_getD_neg (nd : Nat) (intfs : List Interface) :
    ∀ t, t < intfs.length → ∀ k,
      k < (intfs.getD t intfDefault).side_cells * nd →
      (signList nd intfs).getD (signOffset nd intfs t + k) 0 = -1 := by
  induction intfs with
  | nil =>
    intro t ht
    simp at ht
  | cons I rest ih =>
    intro t ht k hk
    cases t with
    | zero =>
      have hk2 : k < I.side_cells * nd := hk
      show ((List.replicate (I.side_cells * nd) ((-1 : ℚ)) ++
          List.replicate (I.side_cells * nd) ((1 : ℚ))) ++ signList nd rest).getD
        (signOffset nd (I :: rest) 0 + k) 0 = -1
      have hoff : signOffset nd (I :: rest) 0 + k = k := by
        simp [signOffset]
      rw [hoff,
        getD_append_left _ _ k 0 (by simp; omega),
        getD_append_left _ _ k 0 (by simp [hk2])]
      exact getD_replicate _ k (-1) 0 hk2
    | succ t =>
      show ((List.replicate (I.side_cells * nd) ((-1 : ℚ)) ++
          List.replicate (I.side_cells * nd) ((1 : ℚ))) ++ signList nd rest).getD
        (signOffset nd (I :: rest) (t + 1) + k) 0 = -1
      have hoff : signOffset nd (I :: rest) (t + 1) + k =
          (List.replicate (I.side_cells * nd) ((-1 : ℚ)) ++
            List.replicate (I.side_cells * nd) (1 : ℚ)).length +
            (signOffset nd rest t + k) := by
        simp [signOffset]
        omega
      rw [hoff, getD_append_right]
      exact ih t (by simpa using ht) k hk

theorem signList_getD_pos (nd : Nat) (intfs : List Interface) :
    ∀ t, t < intfs.length → ∀ k,
      k < (intfs.getD t intfDefault).side_cells * nd →
      (signList nd intfs).getD
        (signOffset nd intfs t +
          (intfs.getD t intfDefault).side_cells * nd + k) 0 = 1 := by
  induction intfs with
  | nil =>
    intro t ht
    simp at ht
  | cons I rest ih =>
    intro t ht k hk
    cases t with
    | zero =>
      have hk2 : k < I.side_cells * nd := hk
      show ((List.replicate (I.side_cells * nd) ((-1 : ℚ)) ++
          List.replicate (I.side_cells * nd) ((1 : ℚ))) ++ signList nd rest).getD
        (signOffset nd (I :: rest) 0 + I.side_cells * nd + k) 0 = 1
      have hoff : signOffset nd (I :: rest) 0 + I.side_cells * nd + k =
          I.side_cells * nd + k := by
        simp [signOffset]
      rw [hoff,
        getD_append_left _ _ (I.side_cells * nd + k) 0 (by simp; omega)]
      have hidx : I.side_cells * nd + k =
          (List.replicate (I.side_cells * nd) ((-1 : ℚ))).length + k := by
        simp
      rw [hidx, getD_append_right]
      exact getD_replicate _ k 1 0 hk2
    | succ t =>
      show ((List.replicate (I.side_cells * nd) ((-1 : ℚ)) ++
          List.replicate (I.side_cells * nd) ((1 : ℚ))) ++ signList nd rest).getD
        (signOffset nd (I :: rest) (t + 1) +
          ((I :: rest).getD (t + 1) intfDefault).side_cells * nd + k) 0 = 1
      have hoff : signOffset nd (I :: rest) (t + 1) +
          ((I :: rest).getD (t + 1) intfDefault).side_cells * nd + k =
          (List.replicate (I.side_cells * nd) ((-1 : ℚ)) ++
            List.replicate (I.side_cells * nd) (1 : ℚ)).length +
            (signOffset nd rest t +
              (rest.getD t intfDefault).side_cells * nd + k) := by
        simp [signOffset]
        omega
      rw [hoff, getD_append_right]
      exact ih t (by simpa using ht) k hk

/- ### C1: the mortar side-sign matrix -/

/-- C1: `sign_of_mortar_sides` is a diagonal matrix; for every interface of
the construction list (in listed order, entries repeated `nd` times per cell
in the vector case) its diagonal block carries −1 on the first half of the
interface's mortar cells and +1 on the second half; every diagonal entry is
±1; and the matrix squares to the identity. -/
theorem sign_of_mortar_sides_spec (intfs : List Interface) (nd : Nat)
    (t : Nat) (ht : t < intfs.length) :
    (sign_of_mortar_sides intfs nd).rows = (sign_of_mortar_sides intfs nd).cols ∧
    (∀ i j, i ≠ j → (sign_of_mortar_sides intfs nd).entry i j = 0) ∧
    (∀ k, k < (intfs.getD t intfDefault).side_cells * nd →
      (sign_of_mortar_sides intfs nd).entry (signOffset nd intfs t + k)
        (signOffset nd intfs t + k) = -1) ∧
    (∀ k, k < (intfs.getD t intfDefault).side_cells * nd →
      (sign_of_mortar_sides intfs nd).entry
        (signOffset nd intfs t + (intfs.getD t intfDefault).side_cells * nd + k)
        (signOffset nd intfs t + (intfs.getD t intfDefault).side_cells * nd + k)
        = 1) ∧
    (∀ i, i < (sign_of_mortar_sides intfs nd).rows →
      (sign_of_mortar_sides intfs nd).entry i i = -1 ∨
        (sign_of_mortar_sides intfs nd).entry i i = 1) ∧
    matEq (matMul (sign_of_mortar_sides intfs nd) (sign_of_mortar_sides intfs nd))
      (idMat (sign_of_mortar_sides intfs nd).rows) := by
  refine ⟨rfl, ?_, ?_, ?_, ?_, ?_⟩
  · intro i j hij
    show (if i = j then (signList nd intfs).getD i 0 else 0) = 0
    rw [if_neg hij]
  · intro k hk
    show (if signOffset nd intfs t + k = signOffset nd intfs t + k
        then (signList nd intfs).getD (signOffset nd intfs t + k) 0 else 0) = -1
    rw [if_pos rfl]
    exact signList_getD_neg nd intfs t ht k hk
  · intro k hk
    show (if signOffset nd intfs t + (intfs.getD t intfDefault).side_cells * nd + k
          = signOffset nd intfs t + (intfs.getD t intfDefault).side_cells * nd + k
        then (signList nd intfs).getD
          (signOffset nd intfs t +
            (intfs.getD t intfDefault).side_cells * nd + k) 0 else 0) = 1
    rw [if_pos rfl]
    exact signList_getD_pos nd intfs t ht k hk
  · intro i hi
    show (if i = i then (signList nd intfs).getD i 0 else 0) = -1 ∨
      (if i = i then (signList nd intfs).getD i 0 else 0) = 1
    rw [if_pos rfl]
    exact signList_mem nd intfs _ (getD_mem (signList nd intfs) i 0 hi)
  · refine ⟨rfl, rfl, ?_⟩
    intro i hi j hj
    have hi2 : i < (signList nd intfs).length := hi
    show (∑ k ∈ Finset.range (signList nd intfs).length,
        (if i = k then (signList nd intfs).getD i 0 else 0) *
        (if k = j then (signList nd intfs).getD k 0 else 0)) =
      (if i = j then 1 else 0)
    rw [Finset.sum_eq_single i]
    · rw [if_pos rfl]
      by_cases hij : i = j
      · rw [if_pos hij, if_pos hij]
        rcases signList_mem nd intfs _ (getD_mem (signList nd intfs) i 0 hi2)
          with hs | hs
        · rw [hs]
          norm_num
        · rw [hs]
          norm_num
      · rw [if_neg hij, if_neg hij, mul_zero]
    · intro b _ hb
      rw [if_neg (fun hc : i = b => hb (Eq.symm hc)), zero_mul]
    · intro hnotmem
      exact absurd (Finset.mem_range.mpr hi2) hnotmem

/-- Witness for C1 on two concrete interfaces with `nd = 2`, checked at the
second interface. -/
theorem sign_of_mortar_sides_spec_witness :
    1 < [Interface.mk 1 [0, 2] [1, 1], Interface.mk 2 [1, 3, 4, 5] [1, 1, 1, 1]].length ∧
    ((sign_of_mortar_sides [Interface.mk 1 [0, 2] [1, 1],
        Interface.mk 2 [1, 3, 4, 5] [1, 1, 1, 1]] 2).rows =
      (sign_of_mortar_sides [Interface.mk 1 [0, 2] [1, 1],
        Interface.mk 2 [1, 3, 4, 5] [1, 1, 1, 1]] 2).cols ∧
    (∀ i j, i ≠ j →
      (sign_of_mortar_sides [Interface.mk 1 [0, 2] [1, 1],
        Interface.mk 2 [1, 3, 4, 5] [1, 1, 1, 1]] 2).entry i j = 0) ∧
    (∀ k, k < (([Interface.mk 1 [0, 2] [1, 1],
          Interface.mk 2 [1, 3, 4, 5] [1, 1, 1, 1]].getD 1
          intfDefault).side_cells) * 2 →
      (sign_of_mortar_sides [Interface.mk 1 [0, 2] [1, 1],
          Interface.mk 2 [1, 3, 4, 5] [1, 1, 1, 1]] 2).entry
        (signOffset 2 [Interface.mk 1 [0, 2] [1, 1],
          Interface.mk 2 [1, 3, 4, 5] [1, 1, 1, 1]] 1 + k)
        (signOffset 2 [Interface.mk 1 [0, 2] [1, 1],
          Interface.mk 2 [1, 3, 4, 5] [1, 1, 1, 1]] 1 + k) = -1) ∧
    (∀ k, k < (([Interface.mk 1 [0, 2] [1, 1],
          Interface.mk 2 [1, 3, 4, 5] [1, 1, 1, 1]].getD 1
          intfDefault).side_cells) * 2 →
      (sign_of_mortar_sides [Interface.mk 1 [0, 2] [1, 1],
          Interface.mk 2 [1, 3, 4, 5] [1, 1, 1, 1]] 2).entry
        (signOffset 2 [Interface.mk 1 [0, 2] [1, 1],
            Interface.mk 2 [1, 3, 4, 5] [1, 1, 1, 1]] 1 +
          (([Interface.mk 1 [0, 2] [1, 1],
            Interface.mk 2 [1, 3, 4, 5] [1, 1, 1, 1]].getD 1
            intfDefault).side_cells) * 2 + k)
        (signOffset 2 [Interface.mk 1 [0, 2] [1, 1],
            Interface.mk 2 [1, 3, 4, 5] [1, 1, 1, 1]] 1 +
          (([Interface.mk 1 [0, 2] [1, 1],
            Interface.mk 2 [1, 3, 4, 5] [1, 1, 1, 1]].getD 1
            intfDefault).side_cells) * 2 + k) = 1) ∧
    (∀ i, i < (sign_of_mortar_sides [Interface.mk 1 [0, 2] [1, 1],
        Interface.mk 2 [1, 3, 4, 5] [1, 1, 1, 1]] 2).rows →
      (sign_of_mortar_sides [Interface.mk 1 [0, 2] [1, 1],
        Interface.mk 2 [1, 3, 4, 5] [1, 1, 1, 1]] 2).entry i i = -1 ∨
      (sign_of_mortar_sides [Interface.mk 1 [0, 2] [1, 1],
        Interface.mk 2 [1, 3, 4, 5] [1, 1, 1, 1]] 2).entry i i = 1) ∧
    matEq (matMul (sign_of_mortar_sides [Interface.mk 1 [0, 2] [1, 1],
        Interface.mk 2 [1, 3, 4, 5] [1, 1, 1, 1]] 2)
        (sign_of_mortar_sides [Interface.mk 1 [0, 2] [1, 1],
          Interface.mk 2 [1, 3, 4, 5] [1, 1, 1, 1]] 2))
      (idMat (sign_of_mortar_sides [Interface.mk 1 [0, 2] [1, 1],
        Interface.mk 2 [1, 3, 4, 5] [1, 1, 1, 1]] 2).rows)) :=
  ⟨by decide, sign_of_mortar_sides_spec [Interface.mk 1 [0, 2] [1, 1],
    Interface.mk 2 [1, 3, 4, 5] [1, 1, 1, 1]] 2 1 (by decide)⟩

/- ### C8: integrated versus averaged mortar projections -/

/-- C8: for a `MortarProjections` object whose averaging weights are nonzero,
the `_int` and `_avg` variants of the mortar-to-primary and
primary-to-mortar projections have identical dimensions and identical
sparsity patterns; and with unit weights — the uniform matching
configuration of the repository test — the `_int` and `_avg` variants are
equal as matrices. -/
theorem mortar_int_avg_spec (intfs : List Interface) (nd NF : Nat)
    (hw : ∀ x ∈ weightsList nd intfs, x ≠ 0) :
    ((mortar_to_primary_int intfs nd NF).rows =
        (mortar_to_primary_avg intfs nd NF).rows ∧
      (mortar_to_primary_int intfs nd NF).cols =
        (mortar_to_primary_avg intfs nd NF).cols ∧
      ∀ r c, ((mortar_to_primary_int intfs nd NF).entry r c ≠ 0 ↔
        (mortar_to_primary_avg intfs nd NF).entry r c ≠ 0)) ∧
    ((primary_to_mortar_int intfs nd NF).rows =
        (primary_to_mortar_avg intfs nd NF).rows ∧
      (primary_to_mortar_int intfs nd NF).cols =
        (primary_to_mortar_avg intfs nd NF).cols ∧
      ∀ r c, ((primary_to_mortar_int intfs nd NF).entry r c ≠ 0 ↔
        (primary_to_mortar_avg intfs nd NF).entry r c ≠ 0)) ∧
    ((∀ x ∈ weightsList nd intfs, x = 1) →
      matEq (mortar_to_primary_int intfs nd NF)
        (mortar_to_primary_avg intfs nd NF) ∧
      matEq (primary_to_mortar_int intfs nd NF)
        (primary_to_mortar_avg intfs nd NF)) := by
  have wnz : ∀ c, (weightsList nd intfs).getD c 1 ≠ 0 := by
    intro c
    by_cases hc : c < (weightsList nd intfs).length
    · exact hw _ (getD_mem _ c 1 hc)
    · rw [getD_len_le _ c 1 (le_of_not_lt hc)]
      norm_num
  refine ⟨⟨rfl, rfl, ?_⟩, ⟨rfl, rfl, ?_⟩, ?_⟩
  · intro r c
    show ((if (pairingList nd intfs).getD c 0 = r then (1 : ℚ) else 0) ≠ 0 ↔
      (if (pairingList nd intfs).getD c 0 = r then
        (weightsList nd intfs).getD c 1 else 0) ≠ 0)
    by_cases hp : (pairingList nd intfs).getD c 0 = r
    · rw [if_pos hp, if_pos hp]
      exact ⟨fun _ => wnz c, fun _ => one_ne_zero⟩
    · rw [if_neg hp, if_neg hp]
  · intro r c
    show ((if (pairingList nd intfs).getD r 0 = c then (1 : ℚ) else 0) ≠ 0 ↔
      (if (pairingList nd intfs).getD r 0 = c then
        (weightsList nd intfs).getD r 1 else 0) ≠ 0)
    by_cases hp : (pairingList nd intfs).getD r 0 = c
    · rw [if_pos hp, if_pos hp]
      exact ⟨fun _ => wnz r, fun _ => one_ne_zero⟩
    · rw [if_neg hp, if_neg hp]
  · intro h1
    have w1 : ∀ c, (weightsList nd intfs).getD c 1 = 1 := by
      intro c
      by_cases hc : c < (weightsList nd intfs).length
      · exact h1 _ (getD_mem _ c 1 hc)
      · exact getD_len_le _ c 1 (le_of_not_lt hc)
    constructor
    · refine ⟨rfl, rfl, ?_⟩
      intro r hr c hc
      show (if (pairingList nd intfs).getD c 0 = r then (1 : ℚ) else 0) =
        (if (pairingList nd intfs).getD c 0 = r then
          (weightsList nd intfs).getD c 1 else 0)
      rw [w1 c]
    · refine ⟨rfl, rfl, ?_⟩
      intro r hr c hc
      show (if (pairingList nd intfs).getD r 0 = c then (1 : ℚ) else 0) =
        (if (pairingList nd intfs).getD r 0 = c then
          (weightsList nd intfs).getD r 1 else 0)
      rw [w1 r]

/-- Witness for C8 on two concrete interfaces with unit weights, `nd = 1`,
six primary face DOFs. -/
theorem mortar_int_avg_spec_witness :
    (∀ x ∈ weightsList 1 [Interface.mk 1 [0, 2] [1, 1],
      Interface.mk 1 [1, 3] [1, 1]], x ≠ 0) ∧
    (((mortar_to_primary_int [Interface.mk 1 [0, 2] [1, 1],
        Interface.mk 1 [1, 3] [1, 1]] 1 6).rows =
      (mortar_to_primary_avg [Interface.mk 1 [0, 2] [1, 1],
        Interface.mk 1 [1, 3] [1, 1]] 1 6).rows ∧
      (mortar_to_primary_int [Interface.mk 1 [0, 2] [1, 1],
        Interface.mk 1 [1, 3] [1, 1]] 1 6).cols =
      (mortar_to_primary_avg [Interface.mk 1 [0, 2] [1, 1],
        Interface.mk 1 [1, 3] [1, 1]] 1 6).cols ∧
      ∀ r c, ((mortar_to_primary_int [Interface.mk 1 [0, 2] [1, 1],
          Interface.mk 1 [1, 3] [1, 1]] 1 6).entry r c ≠ 0 ↔
        (mortar_to_primary_avg [Interface.mk 1 [0, 2] [1, 1],
          Interface.mk 1 [1, 3] [1, 1]] 1 6).entry r c ≠ 0)) ∧
    ((primary_to_mortar_int [Interface.mk 1 [0, 2] [1, 1],
        Interface.mk 1 [1, 3] [1, 1]] 1 6).rows =
      (primary_to_mortar_avg [Interface.mk 1 [0, 2] [1, 1],
        Interface.mk 1 [1, 3] [1, 1]] 1 6).rows ∧
      (primary_to_mortar_int [Interface.mk 1 [0, 2] [1, 1],
        Interface.mk 1 [1, 3] [1, 1]] 1 6).cols =
      (primary_to_mortar_avg [Interface.mk 1 [0, 2] [1, 1],
        Interface.mk 1 [1, 3] [1, 1]] 1 6).cols ∧
      ∀ r c, ((primary_to_mortar_int [Interface.mk 1 [0, 2] [1, 1],
          Interface.mk 1 [1, 3] [1, 1]] 1 6).entry r c ≠ 0 ↔
        (primary_to_mortar_avg [Interface.mk 1 [0, 2] [1, 1],
          Interface.mk 1 [1, 3] [1, 1]] 1 6).entry r c ≠ 0)) ∧
    ((∀ x ∈ weightsList 1 [Interface.mk 1 [0, 2] [1, 1],
        Interface.mk 1 [1, 3] [1, 1]], x = 1) →
      matEq (mortar_to_primary_int [Interface.mk 1 [0, 2] [1, 1],
          Interface.mk 1 [1, 3] [1, 1]] 1 6)
        (mortar_to_primary_avg [Interface.mk 1 [0, 2] [1, 1],
          Interface.mk 1 [1, 3] [1, 1]] 1 6) ∧
      matEq (primary_to_mortar_int [Interface.mk 1 [0, 2] [1, 1],
          Interface.mk 1 [1, 3] [1, 1]] 1 6)
        (primary_to_mortar_avg [Interface.mk 1 [0, 2] [1, 1],
          Interface.mk 1 [1, 3] [1, 1]] 1 6))) :=
  ⟨by decide, mortar_int_avg_spec [Interface.mk 1 [0, 2] [1, 1],
    Interface.mk 1 [1, 3] [1, 1]] 1 6 (by decide)⟩

/- ### C10: primary-to-mortar projections are transposes -/

/-- C10: for every `MortarProjections` object, the primary-to-mortar
projections equal the transposes of the corresponding mortar-to-primary
projections, for both the integrated and the averaged variants. -/
theorem mortar_transpose_spec (intfs : List Interface) (nd NF : Nat) :
    matEq (primary_to_mortar_int intfs nd NF)
      (transposeM (mortar_to_primary_int intfs nd NF)) ∧
    matEq (primary_to_mortar_avg intfs nd NF)
      (transposeM (mortar_to_primary_avg intfs nd NF)) :=
  ⟨⟨rfl, rfl, fun _ _ _ _ => rfl⟩, ⟨rfl, rfl, fun _ _ _ _ => rfl⟩⟩

end Porepy
